import Mathlib

/-!
Verification development for the capture-stream demultiplexer of the
pi-camera-connect repository (core: `StreamCamera` in
src/core/stream-camera.ts).

The embedding below translates the TypeScript source into Lean:

* bytes are modelled as `Nat`, byte buffers as `List Nat`;
* `Buffer.indexOf(sig, start)` becomes `sigIndexFrom`;
* the `while (true)` frame-extraction loop inside the stdout `data`
  handler becomes `extractFrames` (implemented with a fuel parameter
  equal to the buffer length, which is shown sufficient, so that the
  function computes by structural recursion);
* the mutable `StreamCamera` object (codec option, resolved signature,
  `stdoutBuffer`, the registered consumer streams, the pending
  `takeImage` promises and the emitted `frame` events) becomes the
  `Cam` state record, with one transition function per event handler
  or method, and `runOps` folding a list of operations;
* process lifecycle (`startCapture`'s spawn / signature resolution
  order) is modelled separately by the `Ctrl` record, which records the
  observable action log (spawned pids, kill calls, whether the data
  handler was armed).
-/

namespace PiCam

/-- Codec option of `StreamCamera` (stream-camera.ts `enum Codec`). -/
inductive Codec where
  | H264
  | MJPEG
deriving DecidableEq

/-- The fixed JPEG start-of-frame signature returned by
`StreamCamera.getJpegSignature` for every recognized system model:
`Buffer.from([0xff, 0xd8, 0xff, 0xdb, 0x00, 0x84, 0x00])`. -/
def jpegSignature : List Nat := [0xff, 0xd8, 0xff, 0xdb, 0x00, 0x84, 0x00]

/-- The system models recognized by the `switch` in
`StreamCamera.getJpegSignature`. -/
def knownModels : List String :=
  ["BCM2711", "BCM2835 - Pi 3 Model B", "BCM2835 - Pi 3 Model B+",
   "BCM2835 - Pi 4 Model B", "BCM2835 - Pi Zero", "BCM2835 - Pi Zero W",
   "Docker Container"]

/-- Errors thrown synchronously by `StreamCamera` methods. -/
inductive CamError where
  | codecNotMJPEG
  | unknownModel (model : String)
deriving DecidableEq

deriving instance DecidableEq for Except

/-- `StreamCamera.getJpegSignature`: looks up the host system model and
returns the fixed signature, or throws for an unknown model. -/
def getJpegSignature (model : String) : Except CamError (List Nat) :=
  if model ∈ knownModels then .ok jpegSignature
  else .error (.unknownModel model)

/-- Whether `sig` occurs in `s` starting exactly at index `i`
(a full, untruncated match, as for Node `Buffer.indexOf`). -/
def sigMatchesAt (sig s : List Nat) (i : Nat) : Bool :=
  decide ((s.drop i).take sig.length = sig)

/-- `buf.indexOf(sig, start)`: index of the first occurrence of `sig` in
`buf` at an index `≥ start`, or `none` (the source's `-1`). -/
def sigIndexFrom (sig buf : List Nat) (start : Nat) : Option Nat :=
  (List.range buf.length).find? (fun i => decide (start ≤ i) && sigMatchesAt sig buf i)

/-- The `while (true)` loop of the stdout data handler in
`StreamCamera.startCapture`, parameterized by fuel.  One recursion step is
one loop iteration: find the first signature (break if none, retaining the
buffer as-is), slice leading noise off, find the next signature starting
the search at `sig.length` (break if none, retaining the sliced buffer),
emit the frame `buf1.take ni` and continue on `buf1.drop ni`.
Returns (emitted frames in order, final buffer). -/
def extractFramesFuel (sig : List Nat) : Nat → List Nat → List (List Nat) × List Nat
  | 0, buf => ([], buf)
  | fuel + 1, buf =>
    match sigIndexFrom sig buf 0 with
    | none => ([], buf)
    | some si =>
      let buf1 := buf.drop si
      match sigIndexFrom sig buf1 sig.length with
      | none => ([], buf1)
      | some ni =>
        let r := extractFramesFuel sig fuel (buf1.drop ni)
        (buf1.take ni :: r.1, r.2)

/-- The frame-extraction loop.  `buf.length` units of fuel are enough for a
nonempty signature: every iteration that continues consumes at least one
byte of the buffer (`extractFramesFuel_fuel_irrel` below). -/
def extractFrames (sig buf : List Nat) : List (List Nat) × List Nat :=
  extractFramesFuel sig buf.length buf

/-- All indices at which `sig` occurs in `s`, in increasing order
(specification-side description of signature occurrences). -/
def occList (sig s : List Nat) : List Nat :=
  (List.range s.length).filter (fun i => sigMatchesAt sig s i)

/-- The contiguous slice of `s` from index `p` (inclusive) to `q`
(exclusive): `s.slice(p, q)`. -/
def slice (s : List Nat) (p q : Nat) : List Nat :=
  (s.drop p).take (q - p)

/-- `consecSlices f l` applies `f` to each pair of consecutive elements of
`l`; used to phrase "one frame per pair of consecutive occurrences". -/
def consecSlices (f : Nat → Nat → List Nat) : List Nat → List (List Nat)
  | [] => []
  | [_] => []
  | a :: b :: rest => f a b :: consecSlices f (b :: rest)

/-- The signature cannot overlap itself: no proper alignment of `sig`
against itself matches.  Two occurrences of such a signature are always at
least `sig.length` apart. -/
def noOverlap (sig : List Nat) : Prop :=
  ∀ d, d < sig.length → 0 < d → sig.drop d ≠ sig.take (sig.length - d)

/-- One item observed by a consumer stream: a pushed chunk, or the
end-of-stream `push(null)`. -/
inductive Item where
  | chunk (data : List Nat)
  | eof
deriving DecidableEq

/-- One consumer stream created by `createStream`.  `items` is everything
pushed to it so far; `live` records whether it is still in the
`this.streams` registry (streams are removed from the registry exactly
when `stopCapture` pushes their end-of-stream marker, so registry
membership coincides with not yet having received `eof`). -/
structure CStream where
  items : List Item
  live : Bool
deriving DecidableEq

/-- State of a `StreamCamera` data path: the codec option, the resolved
signature closed over by the data handler, the rolling `stdoutBuffer`,
every consumer stream ever created (closed ones are kept so that
per-stream histories can be stated), the `takeImage` promise ledger in
call order (`none` = still pending), and the log of all emitted `frame`
events in order. -/
structure Cam where
  codec : Codec
  jpegSig : List Nat
  stdoutBuffer : List Nat
  streamData : List CStream
  takes : List (Option (List Nat))
  framesLog : List (List Nat)
deriving DecidableEq

/-- A fresh `StreamCamera` with the data handler armed. -/
def camInit (codec : Codec) (sig : List Nat) : Cam :=
  { codec := codec, jpegSig := sig, stdoutBuffer := [], streamData := [],
    takes := [], framesLog := [] }

/-- `innerStream.push(data)` for one registered stream. -/
def pushChunk (d : List Nat) (s : CStream) : CStream :=
  if s.live then { s with items := s.items ++ [Item.chunk d] } else s

/-- The stdout `data` event handler of `StreamCamera.startCapture`:
push the raw chunk to every registered stream; if the codec is not MJPEG,
return; otherwise append the chunk to `stdoutBuffer` and run the
frame-extraction loop, emitting each extracted frame.  A pending
`takeImage` promise (a `once('frame')` listener) resolves with the first
frame emitted after it was registered. -/
def onData (cam : Cam) (d : List Nat) : Cam :=
  let cam1 := { cam with streamData := cam.streamData.map (pushChunk d) }
  if cam1.codec ≠ Codec.MJPEG then cam1
  else
    let r := extractFrames cam1.jpegSig (cam1.stdoutBuffer ++ d)
    let takes1 := match r.1.head? with
      | none => cam1.takes
      | some f => cam1.takes.map (fun o => some (o.getD f))
    { cam1 with
      stdoutBuffer := r.2
      framesLog := cam1.framesLog ++ r.1
      takes := takes1 }

/-- `StreamCamera.createStream`: a new readable stream is created and
pushed into the registry. -/
def createStream (cam : Cam) : Cam :=
  { cam with streamData := cam.streamData ++ [{ items := [], live := true }] }

/-- Closing one stream at `stopCapture`: registered streams get the
end-of-stream `push(null)` and leave the registry. -/
def closeStream (s : CStream) : CStream :=
  if s.live then { items := s.items ++ [Item.eof], live := false } else s

/-- `StreamCamera.stopCapture` restricted to the data path: push `null` to
every registered stream and clear the registry (`this.streams = []`).
The `kill()` of the child process is modelled in `Ctrl`. -/
def stopCapture (cam : Cam) : Cam :=
  { cam with streamData := cam.streamData.map closeStream }

/-- `StreamCamera.takeImage`: throws synchronously unless the codec is
MJPEG; otherwise registers a `once('frame')` listener whose promise is
recorded as a pending (`none`) entry of the ledger. -/
def takeImage (cam : Cam) : Except CamError Cam :=
  if cam.codec ≠ Codec.MJPEG then .error .codecNotMJPEG
  else .ok { cam with takes := cam.takes ++ [none] }

/-- The externally observable operations on a running session. -/
inductive Op where
  | data (d : List Nat)
  | createStream
  | stopCapture
  | takeImage
deriving DecidableEq

/-- One operation step.  A synchronous `takeImage` error leaves the
session state unchanged (the exception propagates to the caller). -/
def runOp (cam : Cam) : Op → Cam
  | .data d => onData cam d
  | .createStream => createStream cam
  | .stopCapture => stopCapture cam
  | .takeImage =>
    match takeImage cam with
    | .error _ => cam
    | .ok c => c

/-- Run a sequence of operations. -/
def runOps (cam : Cam) (ops : List Op) : Cam :=
  ops.foldl runOp cam

/-- Specification-side: the items a stream registered *now* will observe
while the given operations run: every subsequently dispatched chunk in
order, cut off by the first `stopCapture`, which appends the single
end-of-stream marker. -/
def itemsAfter : List Op → List Item
  | [] => []
  | Op.data d :: rest => Item.chunk d :: itemsAfter rest
  | Op.stopCapture :: _ => [Item.eof]
  | Op.createStream :: rest => itemsAfter rest
  | Op.takeImage :: rest => itemsAfter rest

/-- Specification-side: the final consumer streams produced by an
operation sequence starting from a fresh camera, in creation order: each
`createStream` contributes one stream that observes exactly
`itemsAfter rest` and stays live iff no `stopCapture` follows. -/
def streamsSpec : List Op → List CStream
  | [] => []
  | Op.createStream :: rest =>
      { items := itemsAfter rest, live := !(decide (Op.stopCapture ∈ rest)) }
        :: streamsSpec rest
  | _ :: rest => streamsSpec rest

/-- Specification-side: how one already-existing stream evolves over an
operation sequence. -/
def evolveStream (ops : List Op) (s : CStream) : CStream :=
  if s.live then
    { items := s.items ++ itemsAfter ops,
      live := s.live && !(decide (Op.stopCapture ∈ ops)) }
  else s

/-- Number of end-of-stream markers a stream has observed. -/
def eofCount (items : List Item) : Nat :=
  (items.filter (fun it => decide (it = Item.eof))).length

/-- Number of `createStream` operations in a sequence. -/
def createCount (ops : List Op) : Nat :=
  (ops.filter (fun o => decide (o = Op.createStream))).length

/-- Number of `takeImage` operations in a sequence. -/
def takeCount (ops : List Op) : Nat :=
  (ops.filter (fun o => decide (o = Op.takeImage))).length

/-- Lifecycle state of a `StreamCamera` controller: the codec option, the
stored child-process handle, a fresh-pid counter, and observable logs of
every spawn and kill, plus whether the stdout data handler was attached
(`armed`). -/
structure Ctrl where
  codec : Codec
  childProcess : Option Nat
  nextPid : Nat
  spawnLog : List Nat
  killLog : List Nat
  armed : Bool
deriving DecidableEq

/-- A fresh controller. -/
def ctrlInit (codec : Codec) : Ctrl :=
  { codec := codec, childProcess := none, nextPid := 0, spawnLog := [],
    killLog := [], armed := false }

/-- The setup phase of `StreamCamera.startCapture`, in source order: the
child process is spawned unconditionally (there is no check that a
previous session is active) and its handle stored, *then*
`getJpegSignature` is awaited — for any codec.  If signature resolution
throws, the promise rejects at that point, before the stdout data
handler is attached; otherwise the data handler is armed. -/
def startCapture (model : String) (c : Ctrl) : Ctrl × Except CamError Unit :=
  let pid := c.nextPid
  let c1 := { c with childProcess := some pid, nextPid := pid + 1,
                     spawnLog := c.spawnLog ++ [pid] }
  match getJpegSignature model with
  | .error e => (c1, .error e)
  | .ok _sig => ({ c1 with armed := true }, .ok ())

/-! ### General list helpers -/

/-- Two strictly sorted lists with the same members are equal. -/
theorem sorted_eq_of_mem_iff : ∀ {l₁ l₂ : List Nat},
    l₁.Pairwise (· < ·) → l₂.Pairwise (· < ·) →
    (∀ x, x ∈ l₁ ↔ x ∈ l₂) → l₁ = l₂
  | [], [], _, _, _ => rfl
  | [], b :: t₂, _, _, hm => by
      exact absurd ((hm b).mpr (List.mem_cons_self b t₂)) (List.not_mem_nil b)
  | a :: t₁, [], _, _, hm => by
      exact absurd ((hm a).mp (List.mem_cons_self a t₁)) (List.not_mem_nil a)
  | a :: t₁, b :: t₂, h₁, h₂, hm => by
      obtain ⟨ha, h₁t⟩ := List.pairwise_cons.mp h₁
      obtain ⟨hb, h₂t⟩ := List.pairwise_cons.mp h₂
      have hab : a = b := by
        rcases List.mem_cons.mp ((hm a).mp (List.mem_cons_self a t₁)) with h | h
        · exact h
        · rcases List.mem_cons.mp ((hm b).mpr (List.mem_cons_self b t₂)) with h2 | h2
          · exact h2.symm
          · have := hb a h
            have := ha b h2
            omega
      subst hab
      have htm : ∀ x, x ∈ t₁ ↔ x ∈ t₂ := by
        intro x
        constructor
        · intro hx
          rcases List.mem_cons.mp ((hm x).mp (List.mem_cons_of_mem a hx)) with h | h
          · exact absurd (h ▸ ha x hx) (lt_irrefl a)
          · exact h
        · intro hx
          rcases List.mem_cons.mp ((hm x).mpr (List.mem_cons_of_mem a hx)) with h | h
          · exact absurd (h ▸ hb x hx) (lt_irrefl a)
          · exact h
      rw [sorted_eq_of_mem_iff h₁t h₂t htm]

/-- `find?` over `range n` returns the least index satisfying the
predicate. -/
theorem find?_range_min {p : Nat → Bool} : ∀ {n i : Nat},
    (List.range n).find? p = some i →
    i < n ∧ p i = true ∧ ∀ j, j < i → p j = false := by
  intro n
  induction n with
  | zero => intro i h; simp [List.range_zero] at h
  | succ n ih =>
    intro i h
    rw [List.range_succ, List.find?_append] at h
    cases hfn : (List.range n).find? p with
    | some j =>
      rw [hfn] at h
      simp [Option.or] at h
      subst h
      obtain ⟨h1, h2, h3⟩ := ih hfn
      exact ⟨by omega, h2, h3⟩
    | none =>
      rw [hfn] at h
      simp [Option.or] at h
      cases hpn : p n with
      | true =>
        have hn : i = n := by
          simp [List.find?, hpn] at h
          omega
        subst hn
        refine ⟨by omega, hpn, ?_⟩
        intro j hj
        have := List.find?_eq_none.mp hfn j (List.mem_range.mpr hj)
        simpa using this
      | false =>
        simp [List.find?, hpn] at h

/-- `find?` over `range n` returning `none` means no index satisfies the
predicate. -/
theorem find?_range_none {p : Nat → Bool} {n : Nat}
    (h : (List.range n).find? p = none) : ∀ j, j < n → p j = false := by
  intro j hj
  have := List.find?_eq_none.mp h j (List.mem_range.mpr hj)
  simpa using this

/-- Conversely, a least satisfying index forces the `find?` result. -/
theorem find?_range_eq_some {p : Nat → Bool} {n m : Nat}
    (hm : m < n) (hp : p m = true) (hmin : ∀ j, j < m → p j = false) :
    (List.range n).find? p = some m := by
  cases h : (List.range n).find? p with
  | none => exact absurd hp (by simp [find?_range_none h m hm])
  | some i =>
    obtain ⟨h1, h2, h3⟩ := find?_range_min h
    have : i = m := by
      rcases Nat.lt_trichotomy i m with hlt | heq | hgt
      · exact absurd h2 (by simp [hmin i hlt])
      · exact heq
      · exact absurd hp (by simp [h3 m hgt])
    rw [this]

/-- `consecSlices` is `zipWith` of a list against its own tail. -/
theorem consecSlices_eq_zipWith (f : Nat → Nat → List Nat) :
    ∀ l : List Nat, consecSlices f l = List.zipWith f l l.tail := by
  intro l
  induction l with
  | nil => rfl
  | cons a t ih =>
    cases t with
    | nil => rfl
    | cons b r =>
      show f a b :: consecSlices f (b :: r) = f a b :: List.zipWith f (b :: r) r
      rw [ih]
      rfl

/-- Splitting `consecSlices` at a shared interior point. -/
theorem consecSlices_append (f : Nat → Nat → List Nat) :
    ∀ (xs : List Nat) (p : Nat) (ys : List Nat),
    consecSlices f (xs ++ p :: ys) =
      consecSlices f (xs ++ [p]) ++ consecSlices f (p :: ys) := by
  intro xs
  induction xs with
  | nil => intro p ys; rfl
  | cons a xs ih =>
    intro p ys
    cases xs with
    | nil => rfl
    | cons b xs2 =>
      show f a b :: consecSlices f ((b :: xs2) ++ p :: ys) =
        (f a b :: consecSlices f ((b :: xs2) ++ [p])) ++ consecSlices f (p :: ys)
      rw [ih p ys]
      rfl

/-- `consecSlices` over a mapped list. -/
theorem consecSlices_map (f : Nat → Nat → List Nat) (g : Nat → Nat) :
    ∀ l : List Nat,
    consecSlices f (l.map g) = consecSlices (fun a b => f (g a) (g b)) l := by
  intro l
  induction l with
  | nil => rfl
  | cons a t ih =>
    cases t with
    | nil => rfl
    | cons b r =>
      show f (g a) (g b) :: consecSlices f ((b :: r).map g) =
        f (g a) (g b) :: consecSlices (fun a b => f (g a) (g b)) (b :: r)
      rw [ih]

/-- `consecSlices` only depends on the function's values on members. -/
theorem consecSlices_congr {f g : Nat → Nat → List Nat} :
    ∀ l : List Nat, (∀ a ∈ l, ∀ b ∈ l, f a b = g a b) →
    consecSlices f l = consecSlices g l := by
  intro l
  induction l with
  | nil => intro _; rfl
  | cons a t ih =>
    intro h
    cases t with
    | nil => rfl
    | cons b r =>
      show f a b :: consecSlices f (b :: r) = g a b :: consecSlices g (b :: r)
      rw [h a (by simp) b (by simp),
        ih fun x hx y hy => h x (List.mem_cons_of_mem a hx) y (List.mem_cons_of_mem a hy)]

/-! ### Occurrence lists -/

/-- Membership in `occList`. -/
theorem mem_occList {sig s : List Nat} {i : Nat} :
    i ∈ occList sig s ↔ i < s.length ∧ sigMatchesAt sig s i = true := by
  simp [occList, List.mem_filter, List.mem_range]

/-- `occList` is strictly sorted. -/
theorem occList_sorted (sig s : List Nat) : (occList sig s).Pairwise (· < ·) :=
  (List.pairwise_lt_range s.length).filter _

/-- An occurrence leaves room for the whole signature. -/
theorem occ_mem_le {sig s : List Nat} {i : Nat} (h : i ∈ occList sig s) :
    i + sig.length ≤ s.length := by
  obtain ⟨hlt, hmat⟩ := mem_occList.mp h
  have := congrArg List.length (of_decide_eq_true hmat)
  simp [List.length_take, List.length_drop] at this
  omega

/-- Matching in a dropped suffix is matching at a shifted index. -/
theorem sigMatchesAt_drop (sig s : List Nat) (p i : Nat) :
    sigMatchesAt sig (s.drop p) i = sigMatchesAt sig s (p + i) := by
  simp [sigMatchesAt, List.drop_drop]

/-- Matching well inside `s` is unaffected by appending on the right. -/
theorem sigMatchesAt_append {sig s : List Nat} (c : List Nat) {i : Nat}
    (h : i + sig.length ≤ s.length) :
    sigMatchesAt sig (s ++ c) i = sigMatchesAt sig s i := by
  have hi : i ≤ s.length := by omega
  have hl : sig.length ≤ (s.drop i).length := by simp [List.length_drop]; omega
  simp [sigMatchesAt, List.drop_append_of_le_length hi,
    List.take_append_of_le_length hl]

/-- Occurrences of a dropped suffix are the shifted occurrences `≥ p`. -/
theorem occList_drop (sig s : List Nat) (p : Nat) :
    occList sig (s.drop p) =
      ((occList sig s).filter (fun j => decide (p ≤ j))).map (fun j => j - p) := by
  apply sorted_eq_of_mem_iff (occList_sorted _ _)
  · rw [List.pairwise_map]
    refine ((occList_sorted sig s).filter _).imp_of_mem ?_
    intro a b ha _
    have hap : p ≤ a := by
      have := (List.mem_filter.mp ha).2
      simpa using this
    omega
  · intro x
    rw [mem_occList]
    simp only [List.mem_map, List.mem_filter, mem_occList, decide_eq_true_eq]
    constructor
    · intro ⟨hx, hmat⟩
      refine ⟨p + x, ⟨⟨?_, ?_⟩, by omega⟩, by omega⟩
      · simp [List.length_drop] at hx; omega
      · rwa [sigMatchesAt_drop] at hmat
    · intro ⟨j, ⟨⟨hj, hmat⟩, hpj⟩, hjx⟩
      have hjeq : j = p + x := by omega
      subst hjeq
      refine ⟨by simp [List.length_drop]; omega, ?_⟩
      rwa [sigMatchesAt_drop]

/-- Occurrences after appending decompose into old occurrences and
occurrences reaching past the old end. -/
theorem occList_append {sig : List Nat} (hne : sig ≠ []) (s c : List Nat) :
    occList sig (s ++ c) =
      occList sig s ++
        (occList sig (s ++ c)).filter (fun i => decide (s.length < i + sig.length)) := by
  have hsig : 0 < sig.length := List.length_pos.mpr hne
  apply sorted_eq_of_mem_iff (occList_sorted _ _)
  · rw [List.pairwise_append]
    refine ⟨occList_sorted _ _, (occList_sorted _ _).filter _, ?_⟩
    intro a ha b hb
    have h1 := occ_mem_le ha
    have h2 : s.length < b + sig.length := by
      have := (List.mem_filter.mp hb).2
      simpa using this
    omega
  · intro x
    simp only [List.mem_append, List.mem_filter, decide_eq_true_eq]
    constructor
    · intro hx
      by_cases hcase : s.length < x + sig.length
      · exact Or.inr ⟨hx, hcase⟩
      · push_neg at hcase
        obtain ⟨hlt, hmat⟩ := mem_occList.mp hx
        refine Or.inl (mem_occList.mpr ⟨by omega, ?_⟩)
        rwa [sigMatchesAt_append c hcase] at hmat
    · intro hx
      rcases hx with hx | ⟨hx, _⟩
      · obtain ⟨hlt, hmat⟩ := mem_occList.mp hx
        have hle := occ_mem_le hx
        refine mem_occList.mpr ⟨?_, ?_⟩
        · simp [List.length_append]; omega
        · rwa [sigMatchesAt_append c hle]
      · exact hx

/-- Two occurrences of a non-self-overlapping signature are at least the
signature's length apart. -/
theorem occ_gap {sig s : List Nat} (hno : noOverlap sig) {i j : Nat}
    (hi : sigMatchesAt sig s i = true) (hj : sigMatchesAt sig s j = true)
    (hij : i < j) (hcl : j < i + sig.length) : False := by
  have hi' : (s.drop i).take sig.length = sig := of_decide_eq_true hi
  have hj' : (s.drop j).take sig.length = sig := of_decide_eq_true hj
  set d := j - i with hd
  have hdj : i + d = j := by omega
  have hdrop : s.drop j = (s.drop i).drop d := by rw [List.drop_drop, hdj]
  have h1 : sig.drop d = ((s.drop i).drop d).take (sig.length - d) := by
    calc sig.drop d = ((s.drop i).take sig.length).drop d := by rw [hi']
      _ = ((s.drop i).drop d).take (sig.length - d) := List.drop_take ..
  have h2 : sig.take (sig.length - d) = ((s.drop i).drop d).take (sig.length - d) := by
    calc sig.take (sig.length - d)
        = ((s.drop j).take sig.length).take (sig.length - d) := by rw [hj']
      _ = (s.drop j).take (min (sig.length - d) sig.length) := List.take_take ..
      _ = (s.drop j).take (sig.length - d) := by congr 1; omega
      _ = ((s.drop i).drop d).take (sig.length - d) := by rw [hdrop]
  exact hno d (by omega) (by omega) (h1.trans h2.symm)

/-- A strictly sorted list whose minimum is `m` starts with `m`. -/
theorem sorted_head_eq {l : List Nat} {m : Nat} (hs : l.Pairwise (· < ·))
    (hm : m ∈ l) (hle : ∀ x ∈ l, m ≤ x) :
    ∃ t, l = m :: t ∧ ∀ x ∈ t, m < x := by
  cases l with
  | nil => exact absurd hm (List.not_mem_nil m)
  | cons a t =>
    obtain ⟨ha, _⟩ := List.pairwise_cons.mp hs
    have ham : a = m := by
      rcases List.mem_cons.mp hm with h | h
      · omega
      · have := ha m h
        have := hle a (List.mem_cons_self a t)
        omega
    subst ham
    exact ⟨t, rfl, ha⟩

/-! ### Characterization of `sigIndexFrom` -/

/-- What a successful `indexOf` search returns: the least matching index
at or after `start`. -/
theorem sigIndexFrom_some {sig buf : List Nat} {start i : Nat}
    (h : sigIndexFrom sig buf start = some i) :
    start ≤ i ∧ i < buf.length ∧ sigMatchesAt sig buf i = true ∧
      ∀ j, start ≤ j → j < i → sigMatchesAt sig buf j = false := by
  obtain ⟨h1, h2, h3⟩ := find?_range_min h
  rw [Bool.and_eq_true, decide_eq_true_eq] at h2
  refine ⟨h2.1, h1, h2.2, ?_⟩
  intro j hj1 hj2
  have := h3 j hj2
  rw [Bool.and_eq_false_iff] at this
  rcases this with h | h
  · rw [decide_eq_false_iff_not] at h; omega
  · exact h

/-- A failed `indexOf` search: nothing matches at or after `start`. -/
theorem sigIndexFrom_none {sig buf : List Nat} {start : Nat}
    (h : sigIndexFrom sig buf start = none) :
    ∀ j, start ≤ j → j < buf.length → sigMatchesAt sig buf j = false := by
  intro j hj1 hj2
  have := find?_range_none h j hj2
  rw [Bool.and_eq_false_iff] at this
  rcases this with h | h
  · rw [decide_eq_false_iff_not] at h; omega
  · exact h

/-- The least matching index at or after `start` is what `indexOf`
returns. -/
theorem sigIndexFrom_eq_some {sig buf : List Nat} {start m : Nat}
    (hm : start ≤ m) (hlt : m < buf.length)
    (hmat : sigMatchesAt sig buf m = true)
    (hmin : ∀ j, start ≤ j → j < m → sigMatchesAt sig buf j = false) :
    sigIndexFrom sig buf start = some m := by
  apply find?_range_eq_some hlt
  · simp [hm, hmat]
  · intro j hj
    by_cases hsj : start ≤ j
    · simp [hmin j hsj hj]
    · simp [hsj]

/-! ### The frame-extraction loop -/

/-- A search in the empty buffer fails. -/
theorem sigIndexFrom_nil (sig : List Nat) (start : Nat) :
    sigIndexFrom sig [] start = none := by
  simp [sigIndexFrom]

/-- For a nonempty signature, any amount of fuel at least the buffer
length computes the same result: each loop iteration that continues
consumes at least one byte. -/
theorem extractFramesFuel_fuel_irrel {sig : List Nat} (hne : sig ≠ []) :
    ∀ (n m : Nat) (buf : List Nat), buf.length ≤ n → buf.length ≤ m →
    extractFramesFuel sig n buf = extractFramesFuel sig m buf := by
  intro n
  induction n with
  | zero =>
    intro m buf hn _
    have hbuf : buf = [] := List.eq_nil_of_length_eq_zero (Nat.le_zero.mp hn)
    subst hbuf
    cases m with
    | zero => rfl
    | succ m => simp [extractFramesFuel, sigIndexFrom_nil]
  | succ n ih =>
    intro m buf hn hm
    cases m with
    | zero =>
      have hbuf : buf = [] := List.eq_nil_of_length_eq_zero (Nat.le_zero.mp hm)
      subst hbuf
      simp [extractFramesFuel, sigIndexFrom_nil]
    | succ m =>
      simp only [extractFramesFuel]
      cases h0 : sigIndexFrom sig buf 0 with
      | none => rfl
      | some si =>
        cases h1 : sigIndexFrom sig (buf.drop si) sig.length with
        | none => simp only [h1]
        | some ni =>
          obtain ⟨hni_ge, hni_lt, -, -⟩ := sigIndexFrom_some h1
          have hpos : 0 < sig.length := List.length_pos.mpr hne
          have hlen : ((buf.drop si).drop ni).length ≤ n ∧
              ((buf.drop si).drop ni).length ≤ m := by
            simp only [List.length_drop] at hni_lt ⊢
            omega
          simp only [h1]
          rw [ih m ((buf.drop si).drop ni) hlen.1 hlen.2]

/-- One-step unfolding of the extraction loop (for a nonempty
signature). -/
theorem extractFrames_eq {sig : List Nat} (hne : sig ≠ []) (buf : List Nat) :
    extractFrames sig buf =
      match sigIndexFrom sig buf 0 with
      | none => ([], buf)
      | some si =>
        match sigIndexFrom sig (buf.drop si) sig.length with
        | none => ([], buf.drop si)
        | some ni =>
          ((buf.drop si).take ni :: (extractFrames sig ((buf.drop si).drop ni)).1,
            (extractFrames sig ((buf.drop si).drop ni)).2) := by
  unfold extractFrames
  cases hbl : buf.length with
  | zero =>
    have hbuf : buf = [] := List.eq_nil_of_length_eq_zero hbl
    subst hbuf
    simp [extractFramesFuel, sigIndexFrom_nil]
  | succ k =>
    simp only [extractFramesFuel]
    cases h0 : sigIndexFrom sig buf 0 with
    | none => rfl
    | some si =>
      cases h1 : sigIndexFrom sig (buf.drop si) sig.length with
      | none => simp only [h1]
      | some ni =>
        obtain ⟨hni_ge, hni_lt, -, -⟩ := sigIndexFrom_some h1
        have hpos : 0 < sig.length := List.length_pos.mpr hne
        have hk : ((buf.drop si).drop ni).length ≤ k := by
          simp only [List.length_drop] at hni_lt ⊢
          omega
        simp only [h1]
        rw [extractFramesFuel_fuel_irrel hne k ((buf.drop si).drop ni).length
          ((buf.drop si).drop ni) hk (Nat.le_refl _)]

/-- Shifted slices of a dropped suffix are slices of the whole list. -/
theorem slice_drop {s : List Nat} {q a b : Nat} (ha : q ≤ a) (hb : q ≤ b) :
    slice (s.drop q) (a - q) (b - q) = slice s a b := by
  unfold slice
  rw [List.drop_drop]
  congr 1
  · omega
  · congr 1
    omega

/-- The extraction loop, characterized by the occurrence list: it emits
one frame per pair of consecutive occurrences (each frame the slice from
one occurrence to the next), and retains the buffer from the last
occurrence on (the whole buffer when there is no occurrence). -/
theorem extractFrames_spec {sig : List Nat} (hno : noOverlap sig) (hne : sig ≠ []) :
    ∀ buf, extractFrames sig buf =
      (consecSlices (slice buf) (occList sig buf),
        buf.drop ((occList sig buf).getLastD 0)) := by
  have hpos : 0 < sig.length := List.length_pos.mpr hne
  suffices H : ∀ n buf, buf.length ≤ n →
      extractFrames sig buf =
        (consecSlices (slice buf) (occList sig buf),
          buf.drop ((occList sig buf).getLastD 0)) by
    intro buf
    exact H buf.length buf (Nat.le_refl _)
  intro n
  induction n with
  | zero =>
    intro buf hb
    have hbuf : buf = [] := List.eq_nil_of_length_eq_zero (Nat.le_zero.mp hb)
    subst hbuf
    simp [extractFrames, extractFramesFuel, occList, consecSlices, List.getLastD]
  | succ n ih =>
    intro buf hb
    rw [extractFrames_eq hne]
    cases h0 : sigIndexFrom sig buf 0 with
    | none =>
      have hocc : occList sig buf = [] := by
        unfold occList
        rw [List.filter_eq_nil_iff]
        intro a ha
        rw [List.mem_range] at ha
        simp [sigIndexFrom_none h0 a (Nat.zero_le a) ha]
      rw [hocc]
      simp [consecSlices, List.getLastD]
    | some si =>
      obtain ⟨-, hsi_lt, hsi_mat, hsi_min⟩ := sigIndexFrom_some h0
      have hsi_mem : si ∈ occList sig buf := mem_occList.mpr ⟨hsi_lt, hsi_mat⟩
      have hmin : ∀ x ∈ occList sig buf, si ≤ x := by
        intro x hx
        by_contra hcon
        push_neg at hcon
        obtain ⟨hx1, hx2⟩ := mem_occList.mp hx
        rw [hsi_min x (Nat.zero_le x) hcon] at hx2
        exact Bool.false_ne_true hx2
      obtain ⟨t, hocc_eq, ht⟩ :=
        sorted_head_eq (occList_sorted sig buf) hsi_mem hmin
      have hocc1 : occList sig (buf.drop si) = 0 :: t.map (fun j => j - si) := by
        rw [occList_drop, hocc_eq]
        have hfil : (si :: t).filter (fun j => decide (si ≤ j)) = si :: t := by
          rw [List.filter_eq_self]
          intro a ha
          rcases List.mem_cons.mp ha with h | h
          · simp [h]
          · simp [Nat.le_of_lt (ht a h)]
        rw [hfil, List.map_cons, Nat.sub_self]
      cases h1 : sigIndexFrom sig (buf.drop si) sig.length with
      | none =>
        have ht_nil : t = [] := by
          cases t with
          | nil => rfl
          | cons q t2 =>
            exfalso
            have hq_mem : q ∈ occList sig buf := by rw [hocc_eq]; simp
            have hq_gt : si < q := ht q (by simp)
            have hq_gap : si + sig.length ≤ q := by
              by_contra hcon
              push_neg at hcon
              exact occ_gap hno hsi_mat (mem_occList.mp hq_mem).2 hq_gt hcon
            have hq1_mem : (q - si) ∈ occList sig (buf.drop si) := by
              rw [hocc1]
              simp
            obtain ⟨hq1, hq2⟩ := mem_occList.mp hq1_mem
            rw [sigIndexFrom_none h1 (q - si) (by omega) hq1] at hq2
            exact Bool.false_ne_true hq2
        subst ht_nil
        simp only [h1]
        rw [hocc_eq]
        simp [consecSlices, List.getLastD]
      | some ni =>
        obtain ⟨hni_ge, hni_lt, hni_mat, hni_min⟩ := sigIndexFrom_some h1
        cases t with
        | nil =>
          exfalso
          have hni_mem : ni ∈ occList sig (buf.drop si) :=
            mem_occList.mpr ⟨hni_lt, hni_mat⟩
          rw [hocc1] at hni_mem
          simp at hni_mem
          omega
        | cons q t2 =>
          have hq_mem_buf : q ∈ occList sig buf := by rw [hocc_eq]; simp
          have hq_gt : si < q := ht q (by simp)
          have hq_gap : si + sig.length ≤ q := by
            by_contra hcon
            push_neg at hcon
            exact occ_gap hno hsi_mat (mem_occList.mp hq_mem_buf).2 hq_gt hcon
          have ht2_gt : ∀ x ∈ t2, q < x := by
            have hsorted := occList_sorted sig buf
            rw [hocc_eq] at hsorted
            obtain ⟨-, hsorted2⟩ := List.pairwise_cons.mp hsorted
            obtain ⟨hq_all, -⟩ := List.pairwise_cons.mp hsorted2
            exact hq_all
          have hni_eq : ni = q - si := by
            have hni_mem : ni ∈ occList sig (buf.drop si) :=
              mem_occList.mpr ⟨hni_lt, hni_mat⟩
            rw [hocc1] at hni_mem
            rcases List.mem_cons.mp hni_mem with h | h
            · omega
            · rw [List.mem_map] at h
              obtain ⟨j, hj_mem, hj_eq⟩ := h
              rcases List.mem_cons.mp hj_mem with hj | hj
              · subst hj; omega
              · exfalso
                have hqj : q < j := ht2_gt j hj
                have hq1_mem : (q - si) ∈ occList sig (buf.drop si) := by
                  rw [hocc1]
                  simp
                obtain ⟨hq1, hq2⟩ := mem_occList.mp hq1_mem
                have hsij : si < j := by omega
                rw [hni_min (q - si) (by omega) (by omega)] at hq2
                exact Bool.false_ne_true hq2
          subst hni_eq
          have hbuf2 : (buf.drop si).drop (q - si) = buf.drop q := by
            rw [List.drop_drop]
            congr 1
            omega
          have hq_lt : q < buf.length := (mem_occList.mp hq_mem_buf).1
          have hrec := ih (buf.drop q) (by simp [List.length_drop]; omega)
          simp only [h1]
          rw [hbuf2, hrec]
          have hocc2 : occList sig (buf.drop q) =
              0 :: t2.map (fun j => j - q) := by
            rw [occList_drop, hocc_eq]
            have hfil : (si :: q :: t2).filter (fun j => decide (q ≤ j))
                = q :: t2 := by
              rw [List.filter_cons, List.filter_cons]
              have h1f : (decide (q ≤ si)) = false := by
                simp only [decide_eq_false_iff_not]
                omega
              have h2f : (decide (q ≤ q)) = true := by simp
              rw [h1f, h2f]
              simp only [Bool.false_eq_true, if_false, if_true]
              congr 1
              rw [List.filter_eq_self]
              intro x hx
              simp only [decide_eq_true_eq]
              exact Nat.le_of_lt (ht2_gt x hx)
            rw [hfil, List.map_cons, Nat.sub_self]
          rw [hocc_eq, Prod.mk.injEq]
          constructor
          · show (buf.drop si).take (q - si)
                :: consecSlices (slice (buf.drop q)) (occList sig (buf.drop q))
              = consecSlices (slice buf) (si :: q :: t2)
            have hmap : occList sig (buf.drop q) = (q :: t2).map (fun j => j - q) := by
              rw [hocc2, List.map_cons, Nat.sub_self]
            rw [hmap, consecSlices_map]
            have hcong : consecSlices
                (fun a b => slice (buf.drop q) (a - q) (b - q)) (q :: t2)
                = consecSlices (slice buf) (q :: t2) := by
              apply consecSlices_congr
              intro a ha b hb
              have haq : q ≤ a := by
                rcases List.mem_cons.mp ha with h | h
                · omega
                · exact Nat.le_of_lt (ht2_gt a h)
              have hbq : q ≤ b := by
                rcases List.mem_cons.mp hb with h | h
                · omega
                · exact Nat.le_of_lt (ht2_gt b h)
              exact slice_drop haq hbq
            rw [hcong]
            rfl
          · show (buf.drop q).drop ((occList sig (buf.drop q)).getLastD 0)
              = buf.drop ((si :: q :: t2).getLastD 0)
            rw [hocc2]
            rcases List.eq_nil_or_concat t2 with ht2 | ⟨l, m, ht2⟩
            · subst ht2
              simp [List.getLastD_cons, List.getLastD]
            · subst ht2
              have hqm : q < m := ht2_gt m (by simp [List.concat_eq_append])
              simp only [List.concat_eq_append, List.map_append, List.map_cons, List.map_nil]
              have hLHS : List.getLastD
                  (0 :: (l.map (fun j => j - q) ++ [m - q])) 0 = m - q := by
                rw [← List.cons_append, List.getLastD_concat]
              have hRHS : List.getLastD (si :: q :: (l ++ [m])) 0 = m := by
                have hre : si :: q :: (l ++ [m]) = (si :: q :: l) ++ [m] := by simp
                rw [hre, List.getLastD_concat]
              rw [hLHS, hRHS, List.drop_drop]
              congr 1
              omega

/-! ### Facts about the concrete JPEG signature -/

/-- The JPEG signature is nonempty. -/
theorem jpegSignature_ne_nil : jpegSignature ≠ [] := by
  unfold jpegSignature
  simp

/-- The JPEG signature cannot overlap itself. -/
theorem jpegSignature_noOverlap : noOverlap jpegSignature := by
  unfold noOverlap jpegSignature
  decide

/-! ### Runner helpers -/

/-- Every operation preserves the codec option and the resolved
signature. -/
theorem runOp_fixed (cam : Cam) (op : Op) :
    (runOp cam op).codec = cam.codec ∧ (runOp cam op).jpegSig = cam.jpegSig := by
  cases op with
  | data d =>
    simp only [runOp, onData]
    split
    · exact ⟨rfl, rfl⟩
    · exact ⟨rfl, rfl⟩
  | createStream => exact ⟨rfl, rfl⟩
  | stopCapture => exact ⟨rfl, rfl⟩
  | takeImage =>
    by_cases h : cam.codec ≠ Codec.MJPEG
    · simp [runOp, takeImage, h]
    · simp [runOp, takeImage, h]

/-- Operation sequences preserve the codec option and the signature. -/
theorem runOps_fixed (cam : Cam) (ops : List Op) :
    (runOps cam ops).codec = cam.codec ∧ (runOps cam ops).jpegSig = cam.jpegSig := by
  induction ops generalizing cam with
  | nil => exact ⟨rfl, rfl⟩
  | cons op ops ih =>
    have h1 := runOp_fixed cam op
    have h2 := ih (runOp cam op)
    exact ⟨h2.1.trans h1.1, h2.2.trans h1.2⟩

/-- Folding over an appended operation list. -/
theorem runOps_append (cam : Cam) (l₁ l₂ : List Op) :
    runOps cam (l₁ ++ l₂) = runOps (runOps cam l₁) l₂ := by
  simp [runOps, List.foldl_append]

/-- Slices lying inside `s` are unaffected by appending. -/
theorem slice_append {s : List Nat} (c : List Nat) {a b : Nat}
    (ha : a ≤ s.length) (hb : b ≤ s.length) :
    slice (s ++ c) a b = slice s a b := by
  unfold slice
  rw [List.drop_append_of_le_length ha]
  exact List.take_append_of_le_length (by simp [List.length_drop]; omega)

/-- One chunk-processing step of the demultiplexer, in terms of
occurrence lists: starting from the retained buffer of `s` and processing
the new chunk `c`, the previously emitted frames together with the newly
emitted ones are exactly the consecutive-occurrence slices of `s ++ c`,
and the new retained buffer is the suffix of `s ++ c` from its last
occurrence (all of it when there is none). -/
theorem extract_step {sig : List Nat} (hno : noOverlap sig) (hne : sig ≠ [])
    (s c : List Nat) :
    consecSlices (slice s) (occList sig s) ++
        (extractFrames sig (s.drop ((occList sig s).getLastD 0) ++ c)).1
      = consecSlices (slice (s ++ c)) (occList sig (s ++ c)) ∧
    (extractFrames sig (s.drop ((occList sig s).getLastD 0) ++ c)).2
      = (s ++ c).drop ((occList sig (s ++ c)).getLastD 0) := by
  have hpos : 0 < sig.length := List.length_pos.mpr hne
  rcases List.eq_nil_or_concat (occList sig s) with hocc | ⟨occInit, p, hocc⟩
  · rw [hocc]
    simp only [consecSlices, List.getLastD, List.drop_zero, List.nil_append]
    rw [extractFrames_spec hno hne]
    exact ⟨rfl, rfl⟩
  · rw [List.concat_eq_append] at hocc
    have hp_mem : p ∈ occList sig s := by rw [hocc]; simp
    have hp_len : p + sig.length ≤ s.length := occ_mem_le hp_mem
    have hp_le : p ≤ s.length := by omega
    have hlast : (occList sig s).getLastD 0 = p := by
      rw [hocc, List.getLastD_concat]
    have hinput : s.drop p ++ c = (s ++ c).drop p :=
      (List.drop_append_of_le_length hp_le).symm
    rw [hlast, hinput, extractFrames_spec hno hne]
    have hInit_lt : ∀ x ∈ occInit, x < p := by
      have hsorted := occList_sorted sig s
      rw [hocc, List.pairwise_append] at hsorted
      intro x hx
      exact hsorted.2.2 x hx p (by simp)
    have happ := occList_append hne s c
    set news := (occList sig (s ++ c)).filter
      (fun i => decide (s.length < i + sig.length)) with hnews_def
    have hnews_gt : ∀ x ∈ news, p < x := by
      intro x hx
      rw [hnews_def, List.mem_filter] at hx
      have := hx.2
      simp only [decide_eq_true_eq] at this
      omega
    have hocc' : occList sig (s ++ c) = occInit ++ p :: news := by
      rw [happ, hocc]
      simp [List.append_assoc]
    have hfil : (occList sig (s ++ c)).filter (fun j => decide (p ≤ j))
        = p :: news := by
      rw [hocc', List.filter_append, List.filter_cons]
      have h2f : (decide (p ≤ p)) = true := by simp
      rw [h2f]
      simp only [if_true]
      have hInit_nil : occInit.filter (fun j => decide (p ≤ j)) = [] := by
        rw [List.filter_eq_nil_iff]
        intro a ha
        simp only [decide_eq_true_eq]
        have := hInit_lt a ha
        omega
      have hnews_self : news.filter (fun j => decide (p ≤ j)) = news := by
        rw [List.filter_eq_self]
        intro a ha
        simp only [decide_eq_true_eq]
        exact Nat.le_of_lt (hnews_gt a ha)
      rw [hInit_nil, hnews_self]
      rfl
    have hoccB : occList sig ((s ++ c).drop p) = (p :: news).map (fun j => j - p) := by
      rw [occList_drop, hfil]
    constructor
    · rw [hoccB, consecSlices_map]
      have hcong1 : consecSlices
          (fun a b => slice ((s ++ c).drop p) (a - p) (b - p)) (p :: news)
          = consecSlices (slice (s ++ c)) (p :: news) := by
        apply consecSlices_congr
        intro a ha b hb
        have haq : p ≤ a := by
          rcases List.mem_cons.mp ha with h | h
          · omega
          · exact Nat.le_of_lt (hnews_gt a h)
        have hbq : p ≤ b := by
          rcases List.mem_cons.mp hb with h | h
          · omega
          · exact Nat.le_of_lt (hnews_gt b h)
        exact slice_drop haq hbq
      rw [hcong1]
      have hcong2 : consecSlices (slice s) (occList sig s)
          = consecSlices (slice (s ++ c)) (occList sig s) := by
        apply consecSlices_congr
        intro a ha b hb
        have h1 := occ_mem_le ha
        have h2 := occ_mem_le hb
        exact (slice_append c (by omega) (by omega)).symm
      rw [hcong2, hocc, hocc']
      exact (consecSlices_append (slice (s ++ c)) occInit p news).symm
    · rw [hoccB]
      rcases List.eq_nil_or_concat news with hn | ⟨l, m, hn⟩
      · rw [hn, hocc', hn]
        simp only [List.map_cons, List.map_nil, Nat.sub_self, List.getLastD_cons,
          List.getLastD_nil, List.drop_zero]
        rw [List.getLastD_concat]
      · rw [List.concat_eq_append] at hn
        have hm_gt : p < m := hnews_gt m (by rw [hn]; simp)
        rw [hn, hocc', hn]
        have hL : ((p :: (l ++ [m])).map (fun j => j - p)).getLastD 0 = m - p := by
          simp only [List.map_cons, List.map_append, List.map_nil, Nat.sub_self]
          exact List.getLastD_concat 0 (m - p) (0 :: l.map (fun j => j - p))
        have hR : (occInit ++ p :: (l ++ [m])).getLastD 0 = m := by
          rw [show occInit ++ p :: (l ++ [m]) = (occInit ++ p :: l) ++ [m] by simp]
          rw [List.getLastD_concat]
        rw [hL, hR, List.drop_drop]
        have hpm : p + (m - p) = m := by omega
        rw [hpm]

/-- Running any sequence of data chunks through an MJPEG session from a
fresh state: the emitted `frame` events are exactly the slices between
consecutive occurrences of the signature in the concatenation of all
chunks, and the retained buffer is the suffix from the last occurrence
(the whole concatenation when there is none). -/
theorem demux_run {sig : List Nat} (hno : noOverlap sig) (hne : sig ≠ [])
    (chunks : List (List Nat)) :
    (runOps (camInit Codec.MJPEG sig) (chunks.map Op.data)).framesLog
      = consecSlices (slice chunks.flatten) (occList sig chunks.flatten) ∧
    (runOps (camInit Codec.MJPEG sig) (chunks.map Op.data)).stdoutBuffer
      = chunks.flatten.drop ((occList sig chunks.flatten).getLastD 0) := by
  induction chunks using List.reverseRecOn with
  | nil =>
    constructor
    · show ([] : List (List Nat)) = consecSlices (slice []) (occList sig [])
      simp [occList, consecSlices]
    · show ([] : List Nat) = List.drop ((occList sig []).getLastD 0) []
      simp [occList]
  | append_singleton chunks c ih =>
    obtain ⟨ih1, ih2⟩ := ih
    have hfix := runOps_fixed (camInit Codec.MJPEG sig) (chunks.map Op.data)
    have hcodec : (runOps (camInit Codec.MJPEG sig) (chunks.map Op.data)).codec
        = Codec.MJPEG := hfix.1
    have hsig : (runOps (camInit Codec.MJPEG sig) (chunks.map Op.data)).jpegSig
        = sig := hfix.2
    have hstep := extract_step hno hne chunks.flatten c
    rw [List.map_append, runOps_append]
    set st := runOps (camInit Codec.MJPEG sig) (chunks.map Op.data) with hst
    have hrun : runOps st (List.map Op.data [c]) = onData st c := rfl
    rw [hrun]
    unfold onData
    rw [if_neg (by simp [hcodec])]
    simp only [List.flatten_append, List.flatten_cons, List.flatten_nil,
      List.append_nil]
    constructor
    · show st.framesLog ++ (extractFrames st.jpegSig (st.stdoutBuffer ++ c)).1 = _
      rw [hsig, ih1, ih2]
      exact hstep.1
    · show (extractFrames st.jpegSig (st.stdoutBuffer ++ c)).2 = _
      rw [hsig, ih2]
      exact hstep.2

/-- Claim C1: in MJPEG mode, for any chunk sequence whose concatenation
contains `k ≥ 2` occurrences of the fixed start signature, the data
handler emits exactly `k - 1` frame events over the whole run, each equal
to the slice of the concatenation from one occurrence (inclusive) to the
next (exclusive); the right-hand sides depend only on the concatenation,
so the result is invariant under re-chunking. -/
theorem c1_boundary_detection (chunks : List (List Nat))
    (h : 2 ≤ (occList jpegSignature chunks.flatten).length) :
    (runOps (camInit Codec.MJPEG jpegSignature) (chunks.map Op.data)).framesLog.length
      = (occList jpegSignature chunks.flatten).length - 1 ∧
    (runOps (camInit Codec.MJPEG jpegSignature) (chunks.map Op.data)).framesLog
      = List.zipWith (slice chunks.flatten)
          (occList jpegSignature chunks.flatten)
          (occList jpegSignature chunks.flatten).tail := by
  have hd := demux_run jpegSignature_noOverlap jpegSignature_ne_nil chunks
  rw [hd.1, consecSlices_eq_zipWith]
  refine ⟨?_, rfl⟩
  rw [List.length_zipWith, List.length_tail]
  omega

/-- Concrete chunk sequence for the C1 witness: the signature is split
across the chunk boundary, and the concatenation is
`jpegSignature ++ [1] ++ jpegSignature` (two occurrences). -/
def c1chunks : List (List Nat) :=
  [[0xff, 0xd8], [0xff, 0xdb, 0x00, 0x84, 0x00, 0x01,
    0xff, 0xd8, 0xff, 0xdb, 0x00, 0x84, 0x00]]

/-- Witness for C1 at a concrete input with `k = 2`. -/
theorem c1_boundary_detection_witness :
    2 ≤ (occList jpegSignature c1chunks.flatten).length ∧
    ((runOps (camInit Codec.MJPEG jpegSignature) (c1chunks.map Op.data)).framesLog.length
      = (occList jpegSignature c1chunks.flatten).length - 1 ∧
    (runOps (camInit Codec.MJPEG jpegSignature) (c1chunks.map Op.data)).framesLog
      = List.zipWith (slice c1chunks.flatten)
          (occList jpegSignature c1chunks.flatten)
          (occList jpegSignature c1chunks.flatten).tail) :=
  ⟨by decide, c1_boundary_detection c1chunks (by decide)⟩

/-! ### Buffer residue (claim C4) -/

/-- Residue shape of one extraction pass: the retained buffer is empty,
or starts with the signature, or contains no occurrence of the signature
at all (the leading-noise case: when no occurrence was found, the buffer
is retained as-is, noise included). -/
theorem extract_residue {sig : List Nat} (hno : noOverlap sig) (hne : sig ≠ [])
    (buf : List Nat) :
    (extractFrames sig buf).2 = [] ∨
    (extractFrames sig buf).2.take sig.length = sig ∨
    occList sig (extractFrames sig buf).2 = [] := by
  rw [extractFrames_spec hno hne]
  rcases List.eq_nil_or_concat (occList sig buf) with hocc | ⟨l, p, hocc⟩
  · rw [hocc]
    right; right
    simpa using hocc
  · rw [List.concat_eq_append] at hocc
    right; left
    have hp_mem : p ∈ occList sig buf := by rw [hocc]; simp
    have hmat := (mem_occList.mp hp_mem).2
    rw [hocc, List.getLastD_concat]
    exact of_decide_eq_true hmat

/-- Other operations leave the rolling buffer untouched, and a data chunk
in MJPEG mode leaves it as one extraction pass's residue. -/
theorem runOp_buffer (cam : Cam) (op : Op) :
    (runOp cam op).stdoutBuffer = cam.stdoutBuffer ∨
    (runOp cam op).stdoutBuffer
      = (extractFrames cam.jpegSig (cam.stdoutBuffer ++ (match op with
          | Op.data d => d
          | _ => []))).2 := by
  cases op with
  | data d =>
    simp only [runOp, onData]
    split
    · exact Or.inl rfl
    · exact Or.inr rfl
  | createStream => exact Or.inl rfl
  | stopCapture => exact Or.inl rfl
  | takeImage =>
    by_cases h : cam.codec ≠ Codec.MJPEG
    · simp [runOp, takeImage, h]
    · simp [runOp, takeImage, h]

/-- Claim C4 (amended): after every processing pass the buffer is empty,
or begins with the signature, or contains no occurrence of the signature
(retained leading noise). -/
theorem c4_amended (ops : List Op) :
    (runOps (camInit Codec.MJPEG jpegSignature) ops).stdoutBuffer = [] ∨
    (runOps (camInit Codec.MJPEG jpegSignature) ops).stdoutBuffer.take
        jpegSignature.length = jpegSignature ∨
    occList jpegSignature
        (runOps (camInit Codec.MJPEG jpegSignature) ops).stdoutBuffer = [] := by
  induction ops using List.reverseRecOn with
  | nil => exact Or.inl rfl
  | append_singleton ops op ih =>
    rw [runOps_append]
    have hrun : runOps (runOps (camInit Codec.MJPEG jpegSignature) ops) [op]
        = runOp (runOps (camInit Codec.MJPEG jpegSignature) ops) op := rfl
    rw [hrun]
    rcases runOp_buffer (runOps (camInit Codec.MJPEG jpegSignature) ops) op with h | h
    · rw [h]; exact ih
    · rw [h, (runOps_fixed (camInit Codec.MJPEG jpegSignature) ops).2]
      exact extract_residue jpegSignature_noOverlap jpegSignature_ne_nil _

/-- Counterexample to C4 as stated: a noise-only chunk is retained
as-is, so the buffer is neither empty nor signature-initial. -/
theorem c4_counterexample :
    (runOps (camInit Codec.MJPEG jpegSignature) [Op.data [0, 0, 0]]).stdoutBuffer
        = [0, 0, 0] ∧
    ¬ ((runOps (camInit Codec.MJPEG jpegSignature) [Op.data [0, 0, 0]]).stdoutBuffer
        = []) ∧
    ¬ ((runOps (camInit Codec.MJPEG jpegSignature)
          [Op.data [0, 0, 0]]).stdoutBuffer.take jpegSignature.length
        = jpegSignature) := by
  decide

/-! ### The concrete scenario of claim C5 -/

/-- The signature `"SIG"` of the spec's concrete scenario, as bytes. -/
def sigSIG : List Nat := [83, 73, 71]

/-- The chunk `"AAA"`. -/
def c5chunk1 : List Nat := [65, 65, 65]

/-- The chunk `"SIG1dataSIG2moredataSIG3"`. -/
def c5chunk2 : List Nat :=
  [83, 73, 71, 49, 100, 97, 116, 97, 83, 73, 71, 50, 109, 111, 114, 101,
   100, 97, 116, 97, 83, 73, 71, 51]

/-- Counterexample to C5 as stated: the extraction loop keeps running
within the same pass, so the run emits two frames, not exactly one. -/
theorem c5_counterexample :
    (runOps (camInit Codec.MJPEG sigSIG)
        [Op.data c5chunk1, Op.data c5chunk2]).framesLog.length = 2 ∧
    ¬ ((runOps (camInit Codec.MJPEG sigSIG)
        [Op.data c5chunk1, Op.data c5chunk2]).stdoutBuffer
      = [83, 73, 71, 50, 109, 111, 114, 101, 100, 97, 116, 97, 83, 73, 71, 51]) := by
  decide

/-- Claim C5 (amended): feeding `["AAA", "SIG1dataSIG2moredataSIG3"]`
with signature `"SIG"` emits exactly the two frames `"SIG1data"` and
`"SIG2moredata"`, and the pass retains the buffer `"SIG3"`. -/
theorem c5_amended :
    (runOps (camInit Codec.MJPEG sigSIG)
        [Op.data c5chunk1, Op.data c5chunk2]).framesLog
      = [[83, 73, 71, 49, 100, 97, 116, 97],
         [83, 73, 71, 50, 109, 111, 114, 101, 100, 97, 116, 97]] ∧
    (runOps (camInit Codec.MJPEG sigSIG)
        [Op.data c5chunk1, Op.data c5chunk2]).stdoutBuffer
      = [83, 73, 71, 51] := by
  decide

/-! ### Shape of emitted frames (claim C10) -/

/-- A signature-length prefix extracted through an inner `take` is a
prefix of the underlying list. -/
theorem take_of_take_take {X sig : List Nat} {k : Nat}
    (h : (X.take k).take sig.length = sig) : X.take sig.length = sig := by
  rw [List.take_take] at h
  have hlen := congrArg List.length h
  rw [List.length_take] at hlen
  have hk : sig.length ≤ k := by omega
  rw [Nat.min_eq_left hk] at h
  exact h

/-- Every frame emitted by one extraction pass starts with the signature
and has no further occurrence of the signature at any offset at least the
signature's length. -/
theorem extractFramesFuel_frames {sig : List Nat} (hne : sig ≠ []) :
    ∀ (fuel : Nat) (buf f : List Nat), f ∈ (extractFramesFuel sig fuel buf).1 →
      f.take sig.length = sig ∧
      (occList sig f).filter (fun i => decide (sig.length ≤ i)) = [] := by
  intro fuel
  induction fuel with
  | zero =>
    intro buf f hf
    simp [extractFramesFuel] at hf
  | succ fuel ih =>
    intro buf f hf
    simp only [extractFramesFuel] at hf
    cases h0 : sigIndexFrom sig buf 0 with
    | none =>
      rw [h0] at hf
      simp at hf
    | some si =>
      rw [h0] at hf
      cases h1 : sigIndexFrom sig (buf.drop si) sig.length with
      | none =>
        simp [h1] at hf
      | some ni =>
        simp only [h1, List.mem_cons] at hf
        obtain ⟨-, hsilt, hsimat, -⟩ := sigIndexFrom_some h0
        obtain ⟨hni_ge, hni_lt, -, hni_min⟩ := sigIndexFrom_some h1
        rcases hf with hf | hf
        · subst hf
          constructor
          · rw [List.take_take, Nat.min_eq_left hni_ge]
            exact of_decide_eq_true hsimat
          · rw [List.filter_eq_nil_iff]
            intro a ha
            simp only [decide_eq_true_eq]
            intro hlen_le
            obtain ⟨halt, hamat⟩ := mem_occList.mp ha
            have hflen : ((buf.drop si).take ni).length = ni := by
              rw [List.length_take]
              omega
            rw [hflen] at halt
            have hamat1 : (((buf.drop si).take ni).drop a).take sig.length = sig :=
              of_decide_eq_true hamat
            rw [List.drop_take] at hamat1
            have hamat2 : ((buf.drop si).drop a).take sig.length = sig :=
              take_of_take_take hamat1
            have hmm : sigMatchesAt sig (buf.drop si) a = true := by
              unfold sigMatchesAt
              exact decide_eq_true hamat2
            rw [hni_min a hlen_le halt] at hmm
            exact Bool.false_ne_true hmm
        · exact ih ((buf.drop si).drop ni) f hf

/-- Frames appended by any run all satisfy the frame-shape property. -/
theorem runOps_frames_prop {sig : List Nat} (hne : sig ≠ []) :
    ∀ (ops : List Op) (cam : Cam), cam.jpegSig = sig →
    (∀ f ∈ cam.framesLog, f.take sig.length = sig ∧
      (occList sig f).filter (fun i => decide (sig.length ≤ i)) = []) →
    ∀ f ∈ (runOps cam ops).framesLog, f.take sig.length = sig ∧
      (occList sig f).filter (fun i => decide (sig.length ≤ i)) = [] := by
  intro ops
  induction ops with
  | nil => intro cam _ hP f hf; exact hP f hf
  | cons op ops ih =>
    intro cam hsig hP
    have hstep : ∀ f ∈ (runOp cam op).framesLog, f.take sig.length = sig ∧
        (occList sig f).filter (fun i => decide (sig.length ≤ i)) = [] := by
      cases op with
      | data d =>
        simp only [runOp, onData]
        split
        · exact hP
        · intro f hf
          simp only [List.mem_append] at hf
          rcases hf with hf | hf
          · exact hP f hf
          · rw [hsig] at hf
            exact extractFramesFuel_frames hne _ _ f hf
      | createStream => exact hP
      | stopCapture => exact hP
      | takeImage =>
        by_cases h : cam.codec ≠ Codec.MJPEG
        · simpa [runOp, takeImage, h] using hP
        · simpa [runOp, takeImage, h] using hP
    exact ih (runOp cam op) ((runOp_fixed cam op).2.trans hsig) hstep

/-- Claim C10: every emitted frame begins with the start signature at
offset 0 and contains no occurrence of the signature at any offset at
least the signature's length. -/
theorem c10_frame_shape (ops : List Op) (f : List Nat)
    (hf : f ∈ (runOps (camInit Codec.MJPEG jpegSignature) ops).framesLog) :
    f.take jpegSignature.length = jpegSignature ∧
    (occList jpegSignature f).filter
      (fun i => decide (jpegSignature.length ≤ i)) = [] :=
  runOps_frames_prop jpegSignature_ne_nil ops _ rfl (by simp [camInit]) f hf

/-- Witness for C10: the single frame emitted by a concrete run. -/
theorem c10_frame_shape_witness :
    (jpegSignature ++ [1]) ∈ (runOps (camInit Codec.MJPEG jpegSignature)
        [Op.data (jpegSignature ++ [1] ++ jpegSignature)]).framesLog ∧
    ((jpegSignature ++ [1]).take jpegSignature.length = jpegSignature ∧
      (occList jpegSignature (jpegSignature ++ [1])).filter
        (fun i => decide (jpegSignature.length ≤ i)) = []) :=
  ⟨by decide, c10_frame_shape [Op.data (jpegSignature ++ [1] ++ jpegSignature)]
    (jpegSignature ++ [1]) (by decide)⟩

/-! ### Fan-out to consumer streams (claims C6, C7, C9) -/

/-- A data operation updates the consumer streams by pushing the chunk
to every live stream, whatever the codec. -/
theorem runOp_data_streams (cam : Cam) (d : List Nat) :
    (runOp cam (Op.data d)).streamData = cam.streamData.map (pushChunk d) := by
  simp only [runOp, onData]
  split
  · rfl
  · rfl

/-- A `takeImage` operation never touches the consumer streams. -/
theorem runOp_take_streams (cam : Cam) :
    (runOp cam Op.takeImage).streamData = cam.streamData := by
  by_cases h : cam.codec ≠ Codec.MJPEG
  · simp [runOp, takeImage, h]
  · simp [runOp, takeImage, h]

/-- How a whole run transforms the consumer streams: every pre-existing
stream evolves by `evolveStream`, and each `createStream` operation
contributes one stream described by `streamsSpec`. -/
theorem runOps_streams :
    ∀ (ops : List Op) (cam : Cam),
    (runOps cam ops).streamData
      = cam.streamData.map (evolveStream ops) ++ streamsSpec ops := by
  intro ops
  induction ops with
  | nil =>
    intro cam
    show cam.streamData = _
    have hid : ∀ s ∈ cam.streamData, evolveStream [] s = s := by
      intro s _
      unfold evolveStream
      split
      · simp [itemsAfter]
      · rfl
    rw [List.map_congr_left hid, List.map_id', streamsSpec, List.append_nil]
  | cons op ops ih =>
    intro cam
    have hrun : runOps cam (op :: ops) = runOps (runOp cam op) ops := rfl
    rw [hrun, ih]
    cases op with
    | data d =>
      rw [runOp_data_streams, List.map_map]
      have hpt : ∀ s ∈ cam.streamData,
          (evolveStream ops ∘ pushChunk d) s = evolveStream (Op.data d :: ops) s := by
        intro s _
        by_cases hl : s.live
        · simp [evolveStream, pushChunk, itemsAfter, hl, List.append_assoc,
            List.mem_cons]
        · simp [evolveStream, pushChunk, hl]
      rw [List.map_congr_left hpt]
      rfl
    | createStream =>
      show (cam.streamData ++ [({ items := [], live := true } : CStream)]).map
            (evolveStream ops)
          ++ streamsSpec ops = _
      rw [List.map_append]
      have hnew : [({ items := [], live := true } : CStream)].map (evolveStream ops)
          = [{ items := itemsAfter ops, live := !(decide (Op.stopCapture ∈ ops)) }] := by
        simp [evolveStream]
      rw [hnew]
      have hpt : ∀ s ∈ cam.streamData,
          evolveStream ops s = evolveStream (Op.createStream :: ops) s := by
        intro s _
        by_cases hl : s.live
        · simp [evolveStream, itemsAfter, hl, List.mem_cons]
        · simp [evolveStream, hl]
      rw [List.map_congr_left hpt, List.append_assoc]
      rfl
    | stopCapture =>
      show (cam.streamData.map closeStream).map (evolveStream ops)
          ++ streamsSpec ops = _
      rw [List.map_map]
      have hpt : ∀ s ∈ cam.streamData,
          (evolveStream ops ∘ closeStream) s = evolveStream (Op.stopCapture :: ops) s := by
        intro s _
        by_cases hl : s.live
        · simp [evolveStream, closeStream, itemsAfter, hl, List.mem_cons]
        · simp [evolveStream, closeStream, hl]
      rw [List.map_congr_left hpt]
      rfl
    | takeImage =>
      rw [runOp_take_streams]
      have hpt : ∀ s ∈ cam.streamData,
          evolveStream ops s = evolveStream (Op.takeImage :: ops) s := by
        intro s _
        by_cases hl : s.live
        · simp [evolveStream, itemsAfter, hl, List.mem_cons]
        · simp [evolveStream, hl]
      rw [List.map_congr_left hpt]
      rfl

/-- Claim C7: starting from a fresh camera, the final consumer streams
are exactly `streamsSpec ops`: each stream created by `createStream`
observes precisely the chunks dispatched after its registration, in
dispatch order and unmodified (cut off by the first subsequent stop) —
in particular nothing dispatched before its registration. -/
theorem c7_fanout (codec : Codec) (sig : List Nat) (ops : List Op) :
    (runOps (camInit codec sig) ops).streamData = streamsSpec ops := by
  rw [runOps_streams]
  rfl

/-- In a non-MJPEG session no frame is ever emitted and the rolling
buffer is never touched. -/
theorem runOps_plain {cam : Cam} (ops : List Op) (h : cam.codec ≠ Codec.MJPEG) :
    (runOps cam ops).framesLog = cam.framesLog ∧
    (runOps cam ops).stdoutBuffer = cam.stdoutBuffer := by
  induction ops generalizing cam with
  | nil => exact ⟨rfl, rfl⟩
  | cons op ops ih =>
    have hop : (runOp cam op).framesLog = cam.framesLog ∧
        (runOp cam op).stdoutBuffer = cam.stdoutBuffer := by
      cases op with
      | data d =>
        simp only [runOp, onData]
        rw [if_pos]
        · exact ⟨rfl, rfl⟩
        · exact h
      | createStream => exact ⟨rfl, rfl⟩
      | stopCapture => exact ⟨rfl, rfl⟩
      | takeImage => simp [runOp, takeImage, h]
    have hcodec : (runOp cam op).codec ≠ Codec.MJPEG := by
      rw [(runOp_fixed cam op).1]
      exact h
    have htail := ih hcodec
    exact ⟨htail.1.trans hop.1, htail.2.trans hop.2⟩

/-- Claim C6: in plain (non-MJPEG) mode, every chunk is forwarded
unmodified to every registered consumer stream, the boundary-detection
buffer is never populated, and no frame event is ever emitted. -/
theorem c6_plain_mode (codec : Codec) (sig : List Nat) (ops : List Op)
    (h : codec ≠ Codec.MJPEG) :
    (runOps (camInit codec sig) ops).framesLog = [] ∧
    (runOps (camInit codec sig) ops).stdoutBuffer = [] ∧
    (runOps (camInit codec sig) ops).streamData = streamsSpec ops :=
  ⟨(runOps_plain ops h).1, (runOps_plain ops h).2, c7_fanout codec sig ops⟩

/-- Witness for C6 at a concrete operation sequence. -/
theorem c6_plain_mode_witness :
    Codec.H264 ≠ Codec.MJPEG ∧
    ((runOps (camInit Codec.H264 jpegSignature)
        [Op.createStream, Op.data [1, 2], Op.stopCapture]).framesLog = [] ∧
    (runOps (camInit Codec.H264 jpegSignature)
        [Op.createStream, Op.data [1, 2], Op.stopCapture]).stdoutBuffer = [] ∧
    (runOps (camInit Codec.H264 jpegSignature)
        [Op.createStream, Op.data [1, 2], Op.stopCapture]).streamData
      = streamsSpec [Op.createStream, Op.data [1, 2], Op.stopCapture]) :=
  ⟨by decide, c6_plain_mode Codec.H264 jpegSignature
    [Op.createStream, Op.data [1, 2], Op.stopCapture] (by decide)⟩

/-- Position of a created stream inside `streamsSpec`. -/
theorem streamsSpec_get :
    ∀ (pre post : List Op),
    (streamsSpec (pre ++ Op.createStream :: post)).get? (createCount pre)
      = some { items := itemsAfter post, live := !(decide (Op.stopCapture ∈ post)) } := by
  intro pre
  induction pre with
  | nil => intro post; rfl
  | cons op pre ih =>
    intro post
    cases op with
    | data d => exact ih post
    | createStream =>
      show (streamsSpec (Op.createStream :: (pre ++ Op.createStream :: post))).get?
          (createCount (Op.createStream :: pre)) = _
      have hc : createCount (Op.createStream :: pre) = createCount pre + 1 := by
        simp [createCount, List.filter_cons]
      rw [hc]
      exact ih post
    | stopCapture => exact ih post
    | takeImage => exact ih post

/-- The end-of-stream marker count of a created stream's history:
exactly one when some stop follows, zero otherwise. -/
theorem eofCount_itemsAfter :
    ∀ post : List Op,
    eofCount (itemsAfter post) = (if Op.stopCapture ∈ post then 1 else 0) := by
  intro post
  induction post with
  | nil => rfl
  | cons op post ih =>
    cases op with
    | data d =>
      show eofCount (Item.chunk d :: itemsAfter post) = _
      have h1 : eofCount (Item.chunk d :: itemsAfter post)
          = eofCount (itemsAfter post) := by
        simp [eofCount, List.filter_cons]
      rw [h1, ih]
      simp [List.mem_cons]
    | stopCapture =>
      show eofCount [Item.eof] = _
      simp [eofCount, List.mem_cons]
    | createStream =>
      show eofCount (itemsAfter post) = _
      rw [ih]
      simp [List.mem_cons]
    | takeImage =>
      show eofCount (itemsAfter post) = _
      rw [ih]
      simp [List.mem_cons]

/-- Claim C9: the stream registered by a given `createStream` observes,
over the whole run, exactly `itemsAfter post`; its end-of-stream marker
count is exactly one as soon as any stop follows its registration (even
with several stops, and even with no frames), and zero otherwise. -/
theorem c9_stop_eof (codec : Codec) (sig : List Nat) (pre post : List Op) :
    ((runOps (camInit codec sig) (pre ++ Op.createStream :: post)).streamData).get?
        (createCount pre)
      = some { items := itemsAfter post, live := !(decide (Op.stopCapture ∈ post)) } ∧
    eofCount (itemsAfter post) = (if Op.stopCapture ∈ post then 1 else 0) := by
  constructor
  · rw [c7_fanout]
    exact streamsSpec_get pre post
  · exact eofCount_itemsAfter post

/-! ### `takeImage` promises (claim C8) -/

/-- Each operation only appends to the frame event log. -/
theorem runOp_framesLog (cam : Cam) (op : Op) :
    ∃ Y, (runOp cam op).framesLog = cam.framesLog ++ Y := by
  cases op with
  | data d =>
    simp only [runOp, onData]
    split
    · exact ⟨[], by simp⟩
    · exact ⟨_, rfl⟩
  | createStream => exact ⟨[], by simp [runOp, createStream]⟩
  | stopCapture => exact ⟨[], by simp [runOp, stopCapture]⟩
  | takeImage =>
    by_cases h : cam.codec ≠ Codec.MJPEG
    · exact ⟨[], by simp [runOp, takeImage, h]⟩
    · exact ⟨[], by simp [runOp, takeImage, h]⟩

/-- Whole runs only append to the frame event log. -/
theorem runOps_framesLog :
    ∀ (ops : List Op) (cam : Cam),
    ∃ X, (runOps cam ops).framesLog = cam.framesLog ++ X := by
  intro ops
  induction ops with
  | nil => exact fun cam => ⟨[], by simp [runOps]⟩
  | cons op ops ih =>
    intro cam
    obtain ⟨Y, hY⟩ := runOp_framesLog cam op
    obtain ⟨X, hX⟩ := ih (runOp cam op)
    exact ⟨Y ++ X, by
      show (runOps (runOp cam op) ops).framesLog = _
      rw [hX, hY, List.append_assoc]⟩

/-- A resolved `takeImage` ledger entry is never changed again. -/
theorem takes_persist {j : Nat} {f : List Nat} :
    ∀ (ops : List Op) (cam : Cam), cam.takes.get? j = some (some f) →
    (runOps cam ops).takes.get? j = some (some f) := by
  intro ops
  induction ops with
  | nil => exact fun cam h => h
  | cons op ops ih =>
    intro cam h
    apply ih (runOp cam op)
    cases op with
    | data d =>
      simp only [runOp, onData]
      split
      · exact h
      · cases hh : (extractFrames cam.jpegSig (cam.stdoutBuffer ++ d)).1.head? with
        | none => exact h
        | some f0 =>
          show (cam.takes.map (fun o => some (o.getD f0))).get? j = some (some f)
          rw [List.get?_map, h]
          rfl
    | createStream => exact h
    | stopCapture => exact h
    | takeImage =>
      by_cases hc : cam.codec ≠ Codec.MJPEG
      · simpa [runOp, takeImage, hc] using h
      · have hj : j < cam.takes.length := by
          obtain ⟨hlt, -⟩ := List.get?_eq_some.mp h
          exact hlt
        simp only [runOp, takeImage, if_neg hc]
        rw [List.get?_append hj]
        exact h

/-- A pending `takeImage` promise resolves with exactly the first frame
emitted after it was registered (and stays pending when none ever is). -/
theorem takes_resolve {j : Nat} :
    ∀ (ops : List Op) (cam : Cam), cam.codec = Codec.MJPEG →
    cam.takes.get? j = some none →
    (runOps cam ops).takes.get? j
      = some (((runOps cam ops).framesLog.drop cam.framesLog.length).head?) := by
  intro ops
  induction ops with
  | nil =>
    intro cam _ h
    rw [runOps, List.foldl_nil, List.drop_length]
    exact h
  | cons op ops ih =>
    intro cam hcodec h
    have hrun : runOps cam (op :: ops) = runOps (runOp cam op) ops := rfl
    have hcodec1 : (runOp cam op).codec = Codec.MJPEG :=
      (runOp_fixed cam op).1.trans hcodec
    rw [hrun]
    cases op with
    | data d =>
      have hcam1 : runOp cam (Op.data d) = onData cam d := rfl
      rw [hcam1] at hcodec1 ⊢
      unfold onData
      rw [if_neg (by simp [hcodec])]
      cases hh : (extractFrames cam.jpegSig (cam.stdoutBuffer ++ d)).1.head? with
      | none =>
        have hframes_nil : (extractFrames cam.jpegSig (cam.stdoutBuffer ++ d)).1 = [] :=
          List.head?_eq_none_iff.mp hh
        simp only [hh, hframes_nil, List.append_nil]
        exact ih _ hcodec h
      | some f0 =>
        simp only [hh]
        set cam1 : Cam :=
          { cam with
            streamData := cam.streamData.map (pushChunk d)
            stdoutBuffer := (extractFrames cam.jpegSig (cam.stdoutBuffer ++ d)).2
            framesLog := cam.framesLog ++ (extractFrames cam.jpegSig (cam.stdoutBuffer ++ d)).1
            takes := cam.takes.map (fun o => some (o.getD f0)) } with hcam1_def
        have hres : cam1.takes.get? j = some (some f0) := by
          show (cam.takes.map (fun o => some (o.getD f0))).get? j = _
          rw [List.get?_map, h]
          rfl
        rw [takes_persist ops cam1 hres]
        obtain ⟨X, hX⟩ := runOps_framesLog ops cam1
        rw [hX]
        show _ = some ((cam1.framesLog ++ X).drop cam.framesLog.length).head?
        have hlog : cam1.framesLog
            = cam.framesLog ++ (extractFrames cam.jpegSig (cam.stdoutBuffer ++ d)).1 := rfl
        rw [hlog, List.append_assoc, List.drop_left]
        obtain ⟨t1, hft⟩ := List.head?_eq_some_iff.mp hh
        rw [hft]
        rfl
    | createStream => exact ih _ hcodec1 h
    | stopCapture => exact ih _ hcodec1 h
    | takeImage =>
      have hj : j < cam.takes.length := by
        obtain ⟨hlt, -⟩ := List.get?_eq_some.mp h
        exact hlt
      have hstep : (runOp cam Op.takeImage).takes = cam.takes ++ [none] := by
        simp [runOp, takeImage, hcodec]
      have hpend : (runOp cam Op.takeImage).takes.get? j = some none := by
        rw [hstep, List.get?_append hj]
        exact h
      have hflog : (runOp cam Op.takeImage).framesLog = cam.framesLog := by
        simp [runOp, takeImage, hcodec]
      rw [ih _ hcodec1 hpend, hflog]

/-- Claim C8: `takeImage` under a non-MJPEG codec throws synchronously
and performs no retrieval (the session state is untouched); under MJPEG
it registers a pending promise that resolves with exactly the first frame
emitted after the call — never a frame emitted before it. -/
theorem c8_take_image :
    (∀ cam : Cam, cam.codec ≠ Codec.MJPEG →
      takeImage cam = Except.error CamError.codecNotMJPEG ∧
      runOp cam Op.takeImage = cam) ∧
    (∀ (sig : List Nat) (pre post : List Op),
      (runOps (camInit Codec.MJPEG sig) (pre ++ Op.takeImage :: post)).takes.get?
          ((runOps (camInit Codec.MJPEG sig) pre).takes.length)
        = some ((((runOps (camInit Codec.MJPEG sig)
              (pre ++ Op.takeImage :: post)).framesLog).drop
            ((runOps (camInit Codec.MJPEG sig) (pre ++ [Op.takeImage])).framesLog.length)).head?)) := by
  constructor
  · intro cam h
    refine ⟨by simp [takeImage, h], ?_⟩
    simp [runOp, takeImage, h]
  · intro sig pre post
    have hsplit : pre ++ Op.takeImage :: post = (pre ++ [Op.takeImage]) ++ post := by
      simp
    have hfix := runOps_fixed (camInit Codec.MJPEG sig) pre
    set st := runOps (camInit Codec.MJPEG sig) pre with hst
    have hcodec : st.codec = Codec.MJPEG := hfix.1
    have hstT : runOps (camInit Codec.MJPEG sig) (pre ++ [Op.takeImage])
        = runOp st Op.takeImage := by
      rw [runOps_append]
      rfl
    have htakes : (runOp st Op.takeImage).takes = st.takes ++ [none] := by
      simp [runOp, takeImage, hcodec]
    have hpend : (runOp st Op.takeImage).takes.get? st.takes.length = some none := by
      rw [htakes]
      exact List.get?_concat_length st.takes none
    have hcodecT : (runOp st Op.takeImage).codec = Codec.MJPEG :=
      (runOp_fixed st Op.takeImage).1.trans hcodec
    have hflogT : (runOp st Op.takeImage).framesLog = st.framesLog := by
      simp [runOp, takeImage, hcodec]
    rw [hsplit, runOps_append, hstT]
    rw [takes_resolve post (runOp st Op.takeImage) hcodecT hpend]

/-- Witness chunks for C8: the chunk before the call emits one frame, the
chunk after the call emits another; the promise resolves with the
latter. -/
def c8pre : List Op := [Op.data (jpegSignature ++ [1] ++ jpegSignature)]

/-- The post-call operation of the C8 witness. -/
def c8post : List Op := [Op.data ([2] ++ jpegSignature)]

/-- Witness for C8: the concrete promise resolves with the frame emitted
after the call, not with the frame emitted before it. -/
theorem c8_take_image_witness :
    (takeImage (camInit Codec.H264 jpegSignature)
        = Except.error CamError.codecNotMJPEG ∧
      runOp (camInit Codec.H264 jpegSignature) Op.takeImage
        = camInit Codec.H264 jpegSignature) ∧
    (runOps (camInit Codec.MJPEG jpegSignature)
        (c8pre ++ Op.takeImage :: c8post)).takes.get?
        ((runOps (camInit Codec.MJPEG jpegSignature) c8pre).takes.length)
      = some (some (jpegSignature ++ [2])) := by
  constructor
  · exact c8_take_image.1 (camInit Codec.H264 jpegSignature) (by decide)
  · have h := c8_take_image.2 jpegSignature c8pre c8post
    rw [h]
    decide

/-! ### Lifecycle: double start (claim C2) and signature failure (claim C3) -/

/-- Counterexample to C2 as stated: with a session already active, a
second `startCapture` is not rejected — it completes the setup phase,
spawns a second process (`spawnLog = [0, 1]`) and overwrites the stored
handle with the new pid, without any kill of the first process. -/
theorem c2_counterexample :
    (startCapture "BCM2711" (startCapture "BCM2711" (ctrlInit Codec.MJPEG)).1).2
        = Except.ok () ∧
    (startCapture "BCM2711" (startCapture "BCM2711" (ctrlInit Codec.MJPEG)).1).1.spawnLog
        = [0, 1] ∧
    (startCapture "BCM2711" (startCapture "BCM2711" (ctrlInit Codec.MJPEG)).1).1.childProcess
        = some 1 ∧
    (startCapture "BCM2711" (startCapture "BCM2711" (ctrlInit Codec.MJPEG)).1).1.killLog
        = [] := by
  decide

/-- Claim C2 (amended): `startCapture` performs no active-session check:
on a recognized host it always succeeds, spawns a fresh process, stores
the new handle (discarding whatever handle was stored), and never kills
the previous process. -/
theorem c2_amended (c : Ctrl) (model : String) (h : model ∈ knownModels) :
    (startCapture model c).2 = Except.ok () ∧
    (startCapture model c).1.spawnLog = c.spawnLog ++ [c.nextPid] ∧
    (startCapture model c).1.childProcess = some c.nextPid ∧
    (startCapture model c).1.killLog = c.killLog := by
  unfold startCapture getJpegSignature
  rw [if_pos h]
  exact ⟨rfl, rfl, rfl, rfl⟩

/-- Witness for the amended C2, at the double-start scenario. -/
theorem c2_amended_witness :
    ("BCM2711" ∈ knownModels) ∧
    ((startCapture "BCM2711" (startCapture "BCM2711" (ctrlInit Codec.MJPEG)).1).2
        = Except.ok () ∧
    (startCapture "BCM2711" (startCapture "BCM2711" (ctrlInit Codec.MJPEG)).1).1.spawnLog
        = (startCapture "BCM2711" (ctrlInit Codec.MJPEG)).1.spawnLog
          ++ [(startCapture "BCM2711" (ctrlInit Codec.MJPEG)).1.nextPid] ∧
    (startCapture "BCM2711" (startCapture "BCM2711" (ctrlInit Codec.MJPEG)).1).1.childProcess
        = some (startCapture "BCM2711" (ctrlInit Codec.MJPEG)).1.nextPid ∧
    (startCapture "BCM2711" (startCapture "BCM2711" (ctrlInit Codec.MJPEG)).1).1.killLog
        = (startCapture "BCM2711" (ctrlInit Codec.MJPEG)).1.killLog) :=
  ⟨by decide,
    c2_amended (startCapture "BCM2711" (ctrlInit Codec.MJPEG)).1 "BCM2711" (by decide)⟩

/-- Counterexample to C3 as stated: with an unrecognized host and the
codec in plain H264 mode, `startCapture` still resolves the signature and
rejects — but only after the external process has been spawned
(`spawnLog = [0]`). -/
theorem c3_counterexample :
    (startCapture "UnknownPi" (ctrlInit Codec.H264)).2
        = Except.error (CamError.unknownModel "UnknownPi") ∧
    (startCapture "UnknownPi" (ctrlInit Codec.H264)).1.spawnLog = [0] ∧
    (startCapture "UnknownPi" (ctrlInit Codec.H264)).1.armed = false := by
  decide

/-- Claim C3 (amended): when the signature provider cannot determine a
signature, `startCapture` rejects with a fatal configuration error and
the stdout data handler is never armed — but the external process has
already been spawned at that point, and signature resolution is attempted
whatever the configured codec. -/
theorem c3_amended (c : Ctrl) (model : String) (h : model ∉ knownModels) :
    (startCapture model c).2 = Except.error (CamError.unknownModel model) ∧
    (startCapture model c).1.spawnLog = c.spawnLog ++ [c.nextPid] ∧
    (startCapture model c).1.armed = c.armed := by
  unfold startCapture getJpegSignature
  rw [if_neg h]
  exact ⟨rfl, rfl, rfl⟩

/-- Witness for the amended C3, in plain H264 mode. -/
theorem c3_amended_witness :
    ("UnknownPi" ∉ knownModels) ∧
    ((startCapture "UnknownPi" (ctrlInit Codec.H264)).2
        = Except.error (CamError.unknownModel "UnknownPi") ∧
    (startCapture "UnknownPi" (ctrlInit Codec.H264)).1.spawnLog
        = (ctrlInit Codec.H264).spawnLog ++ [(ctrlInit Codec.H264).nextPid] ∧
    (startCapture "UnknownPi" (ctrlInit Codec.H264)).1.armed
        = (ctrlInit Codec.H264).armed) :=
  ⟨by decide, c3_amended (ctrlInit Codec.H264) "UnknownPi" (by decide)⟩

end PiCam
